import Mathlib

/-!
Verification of the symbol-usage analyzer `find_dead_code.py`.

The Python source is shallowly embedded: texts are `List Char`, the regex
substitutions of the Lexical Normalizer (`strip_comments`, `strip_strings`)
are implemented as direct scanning functions with the exact semantics of the
corresponding `re.sub` calls, and the per-kind recognizers (`RE_FUNC_DEF`,
`RE_DEFINE`, `RE_CLASS`, `RE_GLOBAL_VAR`, `RE_FUNC_DECL`, and the extern
declaration pattern of `main`) are encoded as terms of a small backtracking
regex engine whose alternative ordering mirrors the Python `re` module
(leftmost start, greedy/lazy priority, first-alternative-first).
Recursions that consume a non-structural suffix of the text are driven by a
fuel parameter; the public wrappers pass fuel `l.length`, which the
sufficiency lemmas show is enough, and every definition evaluates by kernel
reduction on concrete input.
-/

namespace DeadCode

/-- The opening brace character. -/
def lbrace : Char := Char.ofNat 123

/-- The closing brace character. -/
def rbrace : Char := Char.ofNat 125

/-- The double-quote character, delimiter of C string literals. -/
def dquote : Char := Char.ofNat 34

/-- The backslash character, the C escape prefix. -/
def bslash : Char := Char.ofNat 92

/-- The characters of a Lean string, the representation of Python `str`. -/
def chars (s : String) : List Char := s.data

/-- Number of newline characters in a text (Python `content.count('\n')`). -/
def countNL (s : List Char) : Nat := s.count '\n'

theorem countNL_cons (c : Char) (l : List Char) :
    countNL (c :: l) = countNL l + if c = '\n' then 1 else 0 := by
  by_cases h : c = '\n' <;> simp [countNL, List.count_cons, h]

/-- The Python `\s` class for the ASCII texts the tool scans. -/
def isSpaceChar (c : Char) : Bool :=
  c = ' ' || c = '\t' || c = '\n' || c = '\r' || c = Char.ofNat 11 || c = Char.ofNat 12

/-- The Python `\w` class for the ASCII texts the tool scans:
letters, digits and underscore. -/
def isWordChar (c : Char) : Bool :=
  ('a' ≤ c && c ≤ 'z') || ('A' ≤ c && c ≤ 'Z') || ('0' ≤ c && c ≤ '9') || c = '_'

/-!
## Lexical Normalizer (`strip_comments`, `strip_strings`)

`strip_comments` removes block comments first - for each leftmost `/*` the
shortest span ending in `*/` (an unterminated `/*` matches nothing) - and
line comments second - `//` and everything up to, but excluding, the next
newline.  `strip_strings` replaces each double-quoted literal (body: any
character that is not a quote or backslash, newlines included, or a
backslash followed by any character except newline) by an empty pair of
quotes; an unterminated opening quote matches nothing and scanning resumes
right after it.
-/

/-- Consume up to and including the first `*/`; `none` if there is none.
This is the `.*?\*/` tail of the block-comment pattern. -/
def findClose : List Char → Option (List Char)
  | [] => none
  | [_] => none
  | c₁ :: c₂ :: rest =>
    if c₁ = '*' ∧ c₂ = '/' then some rest
    else findClose (c₂ :: rest)

theorem findClose_suffix : ∀ (l l' : List Char), findClose l = some l' → l' <:+ l
  | [], l', h => by simp [findClose] at h
  | [c], l', h => by simp [findClose] at h
  | c₁ :: c₂ :: rest, l', h => by
    simp only [findClose] at h
    split at h
    · simp only [Option.some.injEq] at h
      subst h
      exact ((List.suffix_cons c₂ rest).trans (List.suffix_cons c₁ (c₂ :: rest)))
    · exact (findClose_suffix (c₂ :: rest) l' h).trans (List.suffix_cons c₁ (c₂ :: rest))

theorem findClose_length_le (l l' : List Char) (h : findClose l = some l') :
    l'.length ≤ l.length :=
  (findClose_suffix l l' h).length_le

theorem findClose_count_le (l l' : List Char) (h : findClose l = some l') :
    countNL l' ≤ countNL l :=
  (findClose_suffix l l' h).sublist.count_le '\n'

/-- The block-comment pass (fuel-driven loop): remove every `/* ... */`
(non-greedy, across newlines), scanning left to right and resuming after
each removal. -/
def removeBlockF : Nat → List Char → List Char
  | 0, l => l
  | fuel + 1, l =>
    match l with
    | [] => []
    | [c] => [c]
    | c₁ :: c₂ :: rest =>
      if c₁ = '/' ∧ c₂ = '*' then
        match findClose rest with
        | some rest' => removeBlockF fuel rest'
        | none => c₁ :: c₂ :: removeBlockF fuel rest
      else c₁ :: removeBlockF fuel (c₂ :: rest)

/-- The block-comment pass of `strip_comments`. -/
def removeBlock (l : List Char) : List Char := removeBlockF l.length l

theorem removeBlockF_count_le (fuel : Nat) :
    ∀ l : List Char, countNL (removeBlockF fuel l) ≤ countNL l := by
  induction fuel with
  | zero => intro l; simp [removeBlockF]
  | succ fuel ih =>
    intro l
    match l with
    | [] => simp [removeBlockF]
    | [c] => simp [removeBlockF]
    | c₁ :: c₂ :: rest =>
      simp only [removeBlockF]
      split
      · split
        next rest' heq =>
          have h1 := ih rest'
          have h2 := findClose_count_le rest rest' heq
          rw [countNL_cons, countNL_cons]
          omega
        next heq =>
          have h1 := ih rest
          rw [countNL_cons, countNL_cons, countNL_cons, countNL_cons]
          omega
      · have h1 := ih (c₂ :: rest)
        rw [countNL_cons, countNL_cons (l := c₂ :: rest)]
        omega

theorem removeBlock_count_le (l : List Char) : countNL (removeBlock l) ≤ countNL l :=
  removeBlockF_count_le l.length l

/-- Drop the `[^\n]*` tail of a line comment, keeping the newline. -/
def dropLine : List Char → List Char
  | [] => []
  | c :: rest => if c = '\n' then c :: rest else dropLine rest

theorem dropLine_suffix (l : List Char) : dropLine l <:+ l := by
  induction l with
  | nil => simp [dropLine]
  | cons c rest ih =>
    by_cases h : c = '\n'
    · simp [dropLine, h]
    · simp only [dropLine, if_neg h]
      exact ih.trans (List.suffix_cons c rest)

theorem dropLine_length_le (l : List Char) : (dropLine l).length ≤ l.length :=
  (dropLine_suffix l).length_le

theorem dropLine_count_le (l : List Char) : countNL (dropLine l) ≤ countNL l :=
  (dropLine_suffix l).sublist.count_le '\n'

/-- The line-comment pass (fuel-driven loop): remove every `//` together
with the rest of its line (the newline itself is kept). -/
def removeLineF : Nat → List Char → List Char
  | 0, l => l
  | fuel + 1, l =>
    match l with
    | [] => []
    | [c] => [c]
    | c₁ :: c₂ :: rest =>
      if c₁ = '/' ∧ c₂ = '/' then removeLineF fuel (dropLine rest)
      else c₁ :: removeLineF fuel (c₂ :: rest)

/-- The line-comment pass of `strip_comments`. -/
def removeLine (l : List Char) : List Char := removeLineF l.length l

theorem removeLineF_count_le (fuel : Nat) :
    ∀ l : List Char, countNL (removeLineF fuel l) ≤ countNL l := by
  induction fuel with
  | zero => intro l; simp [removeLineF]
  | succ fuel ih =>
    intro l
    match l with
    | [] => simp [removeLineF]
    | [c] => simp [removeLineF]
    | c₁ :: c₂ :: rest =>
      simp only [removeLineF]
      split
      · have h1 := ih (dropLine rest)
        have h2 := dropLine_count_le rest
        rw [countNL_cons, countNL_cons]
        omega
      · have h1 := ih (c₂ :: rest)
        rw [countNL_cons, countNL_cons (l := c₂ :: rest)]
        omega

theorem removeLine_count_le (l : List Char) : countNL (removeLine l) ≤ countNL l :=
  removeLineF_count_le l.length l

/-- Embedding of `strip_comments`: block comments are removed first, then line comments. -/
def stripComments (s : List Char) : List Char := removeLine (removeBlock s)

/-- Consume a string-literal body and its closing quote, starting right after
the opening quote; `none` when the attempt fails (unterminated literal, or a
backslash followed by a newline or by nothing, which no amount of
backtracking can repair, the body having contained no free quote). -/
def scanString : List Char → Option (List Char)
  | [] => none
  | [c] => if c = dquote then some [] else none
  | c :: d :: rest =>
    if c = dquote then some (d :: rest)
    else if c = bslash then (if d = '\n' then none else scanString rest)
    else scanString (d :: rest)

theorem scanString_suffix : ∀ (l l' : List Char), scanString l = some l' → l' <:+ l
  | [], l', h => by simp [scanString] at h
  | [c], l', h => by
    simp only [scanString] at h
    split at h
    · simp only [Option.some.injEq] at h
      subst h
      exact List.nil_suffix
    · simp at h
  | c :: d :: rest, l', h => by
    simp only [scanString] at h
    split at h
    · simp only [Option.some.injEq] at h
      subst h
      exact List.suffix_cons c (d :: rest)
    · split at h
      · split at h
        · simp at h
        · exact (scanString_suffix rest l' h).trans
            ((List.suffix_cons d rest).trans (List.suffix_cons c (d :: rest)))
      · exact (scanString_suffix (d :: rest) l' h).trans (List.suffix_cons c (d :: rest))

theorem scanString_length_le (l l' : List Char) (h : scanString l = some l') :
    l'.length ≤ l.length :=
  (scanString_suffix l l' h).length_le

theorem scanString_count_le (l l' : List Char) (h : scanString l = some l') :
    countNL l' ≤ countNL l :=
  (scanString_suffix l l' h).sublist.count_le '\n'

/-- Loop of `strip_strings` (fuel-driven): replace each matched double-quoted
literal by an empty pair of quotes; after a failed attempt scanning resumes
right after the opening quote. -/
def stripStringsF : Nat → List Char → List Char
  | 0, l => l
  | fuel + 1, l =>
    match l with
    | [] => []
    | c :: rest =>
      if c = dquote then
        match scanString rest with
        | some rest' => dquote :: dquote :: stripStringsF fuel rest'
        | none => c :: stripStringsF fuel rest
      else c :: stripStringsF fuel rest

/-- Embedding of `strip_strings`. -/
def stripStrings (l : List Char) : List Char := stripStringsF l.length l

theorem stripStringsF_count_le (fuel : Nat) :
    ∀ l : List Char, countNL (stripStringsF fuel l) ≤ countNL l := by
  induction fuel with
  | zero => intro l; simp [stripStringsF]
  | succ fuel ih =>
    intro l
    match l with
    | [] => simp [stripStringsF]
    | c :: rest =>
      simp only [stripStringsF]
      split
      · split
        next rest' heq =>
          have h1 := ih rest'
          have h2 := scanString_count_le rest rest' heq
          rw [countNL_cons, countNL_cons, countNL_cons]
          have hq : ¬ (dquote = '\n') := by decide
          simp only [if_neg hq]
          omega
        next heq =>
          have h1 := ih rest
          rw [countNL_cons, countNL_cons]
          omega
      · have h1 := ih rest
        rw [countNL_cons, countNL_cons]
        omega

theorem stripStrings_count_le (l : List Char) : countNL (stripStrings l) ≤ countNL l :=
  stripStringsF_count_le l.length l

/-- The "clean" view used by every analysis pass:
`strip_strings(strip_comments(content))`. -/
def cleanText (s : List Char) : List Char := stripStrings (stripComments s)

/-!
## A small backtracking regex engine

Enough of the Python `re` module to encode the recognizers of the Symbol Extractor:
character classes, concatenation, alternation, greedy and lazy repetition,
one capturing group, and the MULTILINE `^` anchor.  `mrun` enumerates the
candidate match ends from a given start position in backtracking priority
order (first alternative first, greedy prefers longer, lazy prefers
shorter), so its head is the match Python would return.  Repetition is
bounded by a gas counter that exceeds the number of possible consuming
iterations, and iterations that consume nothing are discarded (every
repeated sub-pattern of the source regexes consumes at least one
character when it matches, so this drops nothing).
-/

/-- Regular expression syntax. -/
inductive RE where
  | eps : RE
  | cls (p : Char → Bool) : RE
  | seq (l r : RE) : RE
  | alt (l r : RE) : RE
  | starG (r : RE) : RE
  | starL (r : RE) : RE
  | grp (r : RE) : RE
  | bol : RE

/-- Greedy repetition: longer continuations first, then the empty one. -/
def starGRun (f : Nat → Option (Nat × Nat) → List (Nat × Option (Nat × Nat))) :
    Nat → Nat → Option (Nat × Nat) → List (Nat × Option (Nat × Nat))
  | 0, i, cap => [(i, cap)]
  | gas + 1, i, cap =>
    ((f i cap).flatMap (fun jc => if jc.1 ≤ i then [] else starGRun f gas jc.1 jc.2))
      ++ [(i, cap)]

/-- Lazy repetition: the empty continuation first, then longer ones. -/
def starLRun (f : Nat → Option (Nat × Nat) → List (Nat × Option (Nat × Nat))) :
    Nat → Nat → Option (Nat × Nat) → List (Nat × Option (Nat × Nat))
  | 0, i, cap => [(i, cap)]
  | gas + 1, i, cap =>
    (i, cap) :: (f i cap).flatMap (fun jc => if jc.1 ≤ i then [] else starLRun f gas jc.1 jc.2)

/-- All candidate (match end, capture) pairs for `re` at position `i` of
`s`, in backtracking priority order. -/
def mrun (s : List Char) : RE → Nat → Option (Nat × Nat) → List (Nat × Option (Nat × Nat))
  | .eps, i, cap => [(i, cap)]
  | .cls p, i, cap =>
    match s.get? i with
    | some c => if p c then [(i + 1, cap)] else []
    | none => []
  | .seq l r, i, cap => (mrun s l i cap).flatMap (fun jc => mrun s r jc.1 jc.2)
  | .alt l r, i, cap => mrun s l i cap ++ mrun s r i cap
  | .starG r, i, cap => starGRun (fun j c => mrun s r j c) (s.length + 1 - i) i cap
  | .starL r, i, cap => starLRun (fun j c => mrun s r j c) (s.length + 1 - i) i cap
  | .grp r, i, cap => (mrun s r i cap).map (fun jc => (jc.1, some (i, jc.1)))
  | .bol, i, cap =>
    if i = 0 then [(i, cap)]
    else
      match s.get? (i - 1) with
      | some c => if c = '\n' then [(i, cap)] else []
      | none => []

/-- The preferred match of `re` starting exactly at `i`, if any. -/
def findAt (re : RE) (s : List Char) (i : Nat) : Option (Nat × Option (Nat × Nat)) :=
  (mrun s re i none).head?

/-- Embedding of `re.finditer`: scan start positions left to right, take the preferred
match at the leftmost matching start, resume after its end. -/
def finditerGo (re : RE) (s : List Char) : Nat → Nat → List (Nat × Nat × Option (Nat × Nat))
  | 0, _ => []
  | fuel + 1, i =>
    if i ≤ s.length then
      match findAt re s i with
      | some (j, cap) => (i, j, cap) :: finditerGo re s fuel (if j ≤ i then i + 1 else j)
      | none => finditerGo re s fuel (i + 1)
    else []

/-- All non-overlapping matches of `re` in `s`, leftmost first:
(start, end, capture group bounds). -/
def finditer (re : RE) (s : List Char) : List (Nat × Nat × Option (Nat × Nat)) :=
  finditerGo re s (s.length + 1) 0

/-- Single-character pattern. -/
def lit1 (c : Char) : RE := .cls (fun x => x = c)

/-- Literal string pattern. -/
def litS (cs : List Char) : RE := cs.foldr (fun c acc => .seq (lit1 c) acc) .eps

/-- Concatenation of a list of patterns. -/
def cat (rs : List RE) : RE := rs.foldr .seq .eps

/-- Greedy `?`. -/
def reOpt (r : RE) : RE := .alt r .eps

/-- Greedy `+`. -/
def plusG (r : RE) : RE := .seq r (.starG r)

/-- Lazy `+?`. -/
def plusL (r : RE) : RE := .seq r (.starL r)

/-- Class `\s`. -/
def wsp : RE := .cls isSpaceChar

/-- Class `\w`. -/
def wrd : RE := .cls isWordChar

/-- The class `[\w:<>*&]` of return-type tokens (same characters as the
`[\w:*&<>]` of the extern pattern). -/
def isTypeChar (c : Char) : Bool :=
  isWordChar c || c = ':' || c = '<' || c = '>' || c = '*' || c = '&'

/-- Pattern `RE_FUNC_DEF`: `^\s*(qualifiers)(type tokens)+?((\w+::)?\w+)\s*\(...\)
\s*(const\s*)?(override\s*)?` and an opening brace. -/
def reFuncDef : RE := cat [
  .bol, .starG wsp,
  reOpt (cat [litS (chars "static"), plusG wsp]),
  reOpt (cat [litS (chars "inline"), plusG wsp]),
  reOpt (cat [litS (chars "virtual"), plusG wsp]),
  reOpt (cat [litS (chars "const"), plusG wsp]),
  plusL (cat [plusG (.cls isTypeChar), plusG wsp]),
  .grp (cat [reOpt (cat [plusG wrd, litS (chars "::")]), plusG wrd]),
  .starG wsp, lit1 '(', .starG (.cls (fun c => !(c = ';'))), lit1 ')',
  .starG wsp,
  reOpt (cat [litS (chars "const"), .starG wsp]),
  reOpt (cat [litS (chars "override"), .starG wsp]),
  lit1 lbrace]

/-- Pattern `RE_FUNC_DECL`: like `RE_FUNC_DEF` but a `[^)]*` parameter list, an
optional `= 0` pure-virtual marker and a terminating semicolon, capture
group a bare `\w+`. -/
def reFuncDecl : RE := cat [
  .bol, .starG wsp,
  reOpt (cat [litS (chars "static"), plusG wsp]),
  reOpt (cat [litS (chars "inline"), plusG wsp]),
  reOpt (cat [litS (chars "virtual"), plusG wsp]),
  reOpt (cat [litS (chars "const"), plusG wsp]),
  plusL (cat [plusG (.cls isTypeChar), plusG wsp]),
  .grp (plusG wrd),
  .starG wsp, lit1 '(', .starG (.cls (fun c => !(c = ')'))), lit1 ')',
  .starG wsp,
  reOpt (cat [litS (chars "const"), .starG wsp]),
  reOpt (cat [litS (chars "override"), .starG wsp]),
  reOpt (cat [lit1 '=', .starG wsp, lit1 '0', .starG wsp]),
  lit1 ';']

/-- Pattern `RE_DEFINE`: `^\s*#define\s+(\w+)`. -/
def reDefine : RE := cat [
  .bol, .starG wsp, litS (chars "#define"), plusG wsp, .grp (plusG wrd)]

/-- Pattern `RE_CLASS`: `^\s*(class|struct)\s+(\w+)\s*` and a colon or an opening
brace. -/
def reClass : RE := cat [
  .bol, .starG wsp,
  .alt (litS (chars "class")) (litS (chars "struct")),
  plusG wsp, .grp (plusG wrd), .starG wsp,
  .cls (fun c => c = ':' || c = lbrace)]

/-- Pattern `RE_GLOBAL_VAR`: `^` then optional storage/qualifier keywords, a type
token run, whitespace, the captured identifier, then `=`, `;` or `[`. -/
def reGlobalVar : RE := cat [
  .bol,
  reOpt (cat [litS (chars "extern"), plusG wsp]),
  reOpt (cat [litS (chars "volatile"), plusG wsp]),
  reOpt (cat [litS (chars "static"), plusG wsp]),
  reOpt (cat [litS (chars "constexpr"), plusG wsp]),
  reOpt (cat [litS (chars "constinit"), plusG wsp]),
  reOpt (cat [litS (chars "const"), plusG wsp]),
  reOpt (cat [litS (chars "unsigned"), plusG wsp]),
  reOpt (cat [litS (chars "long"), plusG wsp]),
  plusG (.cls isTypeChar),
  plusG wsp, .grp (plusG wrd), .starG wsp,
  .cls (fun c => c = '=' || c = ';' || c = '[')]

/-- The extern-declaration pattern of the orphan check in `main`:
`^\s*extern\s+(volatile\s+)?([\w:*&<>]+\s+)+(\w+)\s*;`. -/
def reOrphanDecl : RE := cat [
  .bol, .starG wsp,
  litS (chars "extern"), plusG wsp,
  reOpt (cat [litS (chars "volatile"), plusG wsp]),
  plusG (cat [plusG (.cls isTypeChar), plusG wsp]),
  .grp (plusG wrd), .starG wsp, lit1 ';']

/-- The 1-based line number of a match start: newline count up to it, plus 1. -/
def lineOf (s : List Char) (start : Nat) : Nat := countNL (s.take start) + 1

/-- The text of the capture group. -/
def capString (s : List Char) (cap : Option (Nat × Nat)) : String :=
  match cap with
  | some (a, b) => String.mk ((s.drop a).take (b - a))
  | none => ""

/-!
## Symbol Extractor (`extract_symbols` and its helpers)

A symbol record: the Python dict
`\x7b"type": ..., "file": ..., "line": ..., "full_name": ...\x7d`.
Per-file symbol dictionaries are association lists with Python-dict update
semantics: assigning to an existing key replaces its value in place,
assigning to a fresh key appends.
-/

/-- One recorded symbol: kind, declaring file, 1-based line, and the
displayed (possibly `Class::`-qualified) name. -/
structure SymInfo where
  kind : String
  file : String
  line : Nat
  fullName : String
deriving DecidableEq

/-- A Python dict keyed by bare symbol name, in insertion order. -/
abbrev SymTable := List (String × SymInfo)

/-- Set `FRAMEWORK_SYMBOLS`: names the framework always uses. -/
def FRAMEWORK_SYMBOLS : List String :=
  ["setup", "loop", "motorTask", "networkTask", "sendStatus", "stopMovement",
   "setRgbLed", "IRAM_ATTR"]

/-- The parts of a `pathlib.Path` the extractor consults: `str(filepath)`
and `filepath.stem`. -/
structure FPath where
  path : String
  stem : String
deriving DecidableEq

/-- Python dict assignment `d[k] = v`: replace in place or append. -/
def dinsert : SymTable → String → SymInfo → SymTable
  | [], k, v => [(k, v)]
  | (k', v') :: rest, k, v =>
    if k' = k then (k, v) :: rest else (k', v') :: dinsert rest k v

/-- Python `d.update(d')`. -/
def dupdate (d d' : SymTable) : SymTable :=
  d'.foldl (fun acc kv => dinsert acc kv.1 kv.2) d

/-- Bool membership of a string in a list (Python `in` on a set of names). -/
def strMem (l : List String) (s : String) : Bool := l.any (fun t => t = s)

/-- Python `name.startswith("_")`. -/
def startsWithUnderscore (s : String) : Bool :=
  match s.data with
  | c :: _ => c = '_'
  | [] => false

/-- Python `s.endswith(suffix)` for a concrete suffix. -/
def endsWithL (suffix : List Char) (s : String) : Bool :=
  decide (s.data.reverse.take suffix.length = suffix.reverse)

/-- Python `name.split("::")`: split on the two-character separator,
left-to-right and non-overlapping. -/
def splitCC : List Char → List (List Char)
  | [] => [[]]
  | [c] => [[c]]
  | c₁ :: c₂ :: rest =>
    if c₁ = ':' ∧ c₂ = ':' then [] :: splitCC rest
    else
      match splitCC (c₂ :: rest) with
      | [] => [[c₁]]
      | seg :: segs => (c₁ :: seg) :: segs

/-- Python `name.split("::")[-1] if "::" in name else name` (for a name with no
`::`, the split is the whole name). -/
def baseNameOf (name : String) : String :=
  String.mk ((splitCC name.data).getLastD name.data)

/-- The include-guard pattern of a file:
`filepath.stem.upper().replace(".", "_") + "_H"` (upper-casing leaves `.`
unchanged, so one character map suffices). -/
def guardPattern (stem : String) : String :=
  String.mk (stem.data.map (fun c => if c = '.' then '_' else c.toUpper)) ++ "_H"

/-- Embedding of `_extract_functions`: every `RE_FUNC_DEF` match whose base name is not
framework-reserved and does not start with an underscore. -/
def extractFunctions (clean : List Char) (fp : FPath) : SymTable :=
  (finditer reFuncDef clean).foldl (fun d m =>
    let name := capString clean m.2.2
    let base := baseNameOf name
    if strMem FRAMEWORK_SYMBOLS base || startsWithUnderscore base then d
    else dinsert d base ⟨"function", fp.path, lineOf clean m.1, name⟩) []

/-- Embedding of `_extract_defines`: every `RE_DEFINE` match that is not
framework-reserved, does not start with an underscore, and is not an
include-guard-like name (the guard pattern of the file, or ending in `_H`
with fewer than 30 characters). -/
def extractDefines (clean : List Char) (fp : FPath) : SymTable :=
  (finditer reDefine clean).foldl (fun d m =>
    let name := capString clean m.2.2
    if strMem FRAMEWORK_SYMBOLS name || startsWithUnderscore name then d
    else if name = guardPattern fp.stem
        || (endsWithL (chars "_H") name && name.length < 30) then d
    else dinsert d name ⟨"define", fp.path, lineOf clean m.1, name⟩) []

/-- Embedding of `_extract_classes`: every `RE_CLASS` match that does not start with an
underscore. -/
def extractClasses (clean : List Char) (fp : FPath) : SymTable :=
  (finditer reClass clean).foldl (fun d m =>
    let name := capString clean m.2.2
    if startsWithUnderscore name then d
    else dinsert d name ⟨"class", fp.path, lineOf clean m.1, name⟩) []

/-- Embedding of `extract_symbols`: clean the raw content, then merge the three
recognizer passes (functions, then `#define` macros, then classes) into one
per-file dictionary. -/
def extractSymbols (fp : FPath) (content : List Char) : SymTable :=
  let clean := cleanText content
  dupdate (dupdate (extractFunctions clean fp) (extractDefines clean fp))
    (extractClasses clean fp)

/-- The global-table step of `main`: keep the first definition of a name
(`if name not in all_symbols: all_symbols[name] = info`). -/
def insertIfAbsent (a : SymTable) (kv : String × SymInfo) : SymTable :=
  if (a.lookup kv.1).isSome then a else a ++ [kv]

/-- The symbol-table construction loop of `main`: fold the extracted
table of every file, in processing order, into one global table. -/
def buildAllSymbols (tables : List SymTable) : SymTable :=
  tables.foldl (fun acc tbl => tbl.foldl insertIfAbsent acc) []

/-!
## Claim C5 - newline preservation of the Normalizer

The claim asserts that for every raw input the clean text has the same
number of newline characters as the raw text.  A block comment that spans a
newline is removed together with its newline, so equality fails; the
inequality `countNL (cleanText s) ≤ countNL s` is what holds.
-/

/-- C5 (counterexample): on the raw text `/*<newline>*/` the clean text has
0 newline characters while the raw text has 1, so the Normalizer does not
preserve the number of newline characters. -/
theorem c5_clean_newline_counterexample :
    ¬ countNL (cleanText (chars "/*\n*/")) = countNL (chars "/*\n*/") := by
  decide

/-- C5 (amended): for every raw input text, the clean text produced by the
Normalizer (comment stripping then string-literal neutralization) contains
at most as many newline characters as the raw text; equality can fail when
a block comment or a string literal spans a newline. -/
theorem c5_clean_newline_le (s : List Char) :
    countNL (cleanText s) ≤ countNL s :=
  le_trans (stripStrings_count_le (stripComments s))
    (le_trans (removeLine_count_le (removeBlock s)) (removeBlock_count_le s))

/-!
## Claim C6 - idempotence of comment stripping

Removing a block comment can join a `/` on its left with a `*` on its
right, creating a fresh `/*` that only a second pass removes; on the text
`//*a*/*b*/` the first pass yields `/*b*/` and the second pass the empty
text.  Idempotence does hold for every output of `strip_comments` that
contains no block-comment opener `/*` (such an output never contains `//`
either, because the line-comment pass runs last).
-/

/-- Does the text contain the two-character substring `//`? -/
def hasDD : List Char → Bool
  | [] => false
  | [_] => false
  | c₁ :: c₂ :: rest => (c₁ = '/' && c₂ = '/') || hasDD (c₂ :: rest)

/-- Does the text contain the block-comment opener `/*`? -/
def hasBO : List Char → Bool
  | [] => false
  | [_] => false
  | c₁ :: c₂ :: rest => (c₁ = '/' && c₂ = '*') || hasBO (c₂ :: rest)

theorem dropLine_shape (l : List Char) :
    dropLine l = [] ∨ (dropLine l).head? = some '\n' := by
  induction l with
  | nil => left; simp [dropLine]
  | cons c rest ih =>
    by_cases h : c = '\n'
    · right; simp [dropLine, h]
    · simpa [dropLine, if_neg h] using ih

/-- The head of the line-comment pass output: either the head of the input
(nothing was removed at the front), or a newline (a leading line comment was
removed up to its newline), or nothing. -/
theorem removeLineF_head_cases (fuel : Nat) :
    ∀ l : List Char, (removeLineF fuel l).head? = l.head?
      ∨ (removeLineF fuel l).head? = some '\n'
      ∨ (removeLineF fuel l).head? = none := by
  induction fuel with
  | zero => intro l; left; simp [removeLineF]
  | succ fuel ih =>
    intro l
    match l with
    | [] => left; simp [removeLineF]
    | [c] => left; simp [removeLineF]
    | c₁ :: c₂ :: rest =>
      simp only [removeLineF]
      split
      · rcases dropLine_shape rest with hsh | hsh
        · right; right
          rw [hsh]
          cases fuel <;> simp [removeLineF]
        · match hdl : dropLine rest with
          | [] => simp [hdl] at hsh
          | d :: ds =>
            rw [hdl] at hsh
            have hd : d = '\n' := by simpa using hsh
            subst hd
            rcases ih ('\n' :: ds) with h | h | h
            · right; left; rw [h]; simp
            · right; left; exact h
            · right; right; exact h
      · left; simp

theorem hasDD_cons_false (c : Char) (l : List Char) (h1 : hasDD l = false)
    (h2 : ∀ x, l.head? = some x → ¬(c = '/' ∧ x = '/')) :
    hasDD (c :: l) = false := by
  match l with
  | [] => simp [hasDD]
  | x :: xs =>
    have hx := h2 x (by simp)
    simp only [hasDD, Bool.or_eq_false_iff, Bool.and_eq_false_iff]
    constructor
    · by_cases hc : c = '/'
      · right
        simp only [decide_eq_false_iff_not]
        intro hx'
        exact hx ⟨hc, hx'⟩
      · left
        simp [hc]
    · exact h1

/-- Output of the line-comment pass contains no `//`.  (Fuel at least the
input length; the wrapper `removeLine` always supplies that.) -/
theorem removeLineF_no_dd (fuel : Nat) :
    ∀ l : List Char, l.length ≤ fuel → hasDD (removeLineF fuel l) = false := by
  induction fuel with
  | zero =>
    intro l hl
    have : l = [] := List.eq_nil_of_length_eq_zero (Nat.le_zero.mp hl)
    subst this
    simp [removeLineF, hasDD]
  | succ fuel ih =>
    intro l hl
    match l with
    | [] => simp [removeLineF, hasDD]
    | [c] => simp [removeLineF, hasDD]
    | c₁ :: c₂ :: rest =>
      simp only [List.length_cons] at hl
      simp only [removeLineF]
      split
      next hdd =>
        apply ih
        have := dropLine_length_le rest
        omega
      next hdd =>
        apply hasDD_cons_false
        · apply ih
          simp only [List.length_cons]
          omega
        · intro x hx hcx
          rcases removeLineF_head_cases fuel (c₂ :: rest) with h | h | h <;> rw [hx] at h
          · simp only [List.head?_cons, Option.some.injEq] at h
            exact hdd ⟨hcx.1, by rw [← h, hcx.2]⟩
          · simp only [Option.some.injEq] at h
            rw [h] at hcx
            exact absurd hcx.2 (by decide)
          · simp at h

/-- If the text contains no `//`, the line-comment pass leaves it unchanged. -/
theorem removeLineF_id (fuel : Nat) :
    ∀ l : List Char, hasDD l = false → removeLineF fuel l = l := by
  induction fuel with
  | zero => intro l _; simp [removeLineF]
  | succ fuel ih =>
    intro l h
    match l with
    | [] => simp [removeLineF]
    | [c] => simp [removeLineF]
    | c₁ :: c₂ :: rest =>
      simp only [hasDD, Bool.or_eq_false_iff, Bool.and_eq_false_iff] at h
      simp only [removeLineF]
      split
      next hdd =>
        rcases h.1 with hc | hc <;> simp [hdd.1, hdd.2] at hc
      next hdd =>
        rw [ih (c₂ :: rest) h.2]

/-- If the text contains no `/*`, the block-comment pass leaves it
unchanged. -/
theorem removeBlockF_id (fuel : Nat) :
    ∀ l : List Char, hasBO l = false → removeBlockF fuel l = l := by
  induction fuel with
  | zero => intro l _; simp [removeBlockF]
  | succ fuel ih =>
    intro l h
    match l with
    | [] => simp [removeBlockF]
    | [c] => simp [removeBlockF]
    | c₁ :: c₂ :: rest =>
      simp only [hasBO, Bool.or_eq_false_iff, Bool.and_eq_false_iff] at h
      simp only [removeBlockF]
      split
      next hbo =>
        rcases h.1 with hc | hc <;> simp [hbo.1, hbo.2] at hc
      next hbo =>
        rw [ih (c₂ :: rest) h.2]

theorem stripComments_no_dd (s : List Char) : hasDD (stripComments s) = false :=
  removeLineF_no_dd (removeBlock s).length (removeBlock s) le_rfl

/-- C6 (counterexample): comment stripping is not idempotent.  On the input
`//*a*/*b*/` the first pass removes the block comment `/*a*/`, joining the
leading `/` with the following `*` into a fresh block comment `/*b*/`, which
a second application removes. -/
theorem c6_strip_comments_not_idempotent :
    ¬ stripComments (stripComments (chars "//*a*/*b*/"))
        = stripComments (chars "//*a*/*b*/") := by
  decide

/-- C6 (amended): comment stripping is idempotent on every already-stripped
text that contains no block-comment opener `/*`: a second application
returns it unchanged.  (A first pass can only fail to be a fixed point by
leaving or creating a `/*`-`*/` pair; it never leaves a `//`.) -/
theorem c6_strip_comments_idempotent_no_opener (s : List Char)
    (h : hasBO (stripComments s) = false) :
    stripComments (stripComments s) = stripComments s := by
  show removeLine (removeBlock (stripComments s)) = stripComments s
  unfold removeBlock
  rw [removeBlockF_id _ _ h]
  unfold removeLine
  rw [removeLineF_id _ _ (stripComments_no_dd s)]

/-- C6 (witness): a concrete already-stripped text with no block-comment
opener, on which a second pass is the identity. -/
theorem c6_idempotent_witness :
    hasBO (stripComments (chars "int x; // c\ny /* b */ z")) = false
    ∧ stripComments (stripComments (chars "int x; // c\ny /* b */ z"))
        = stripComments (chars "int x; // c\ny /* b */ z") :=
  ⟨by decide, c6_strip_comments_idempotent_no_opener (chars "int x; // c\ny /* b */ z") (by decide)⟩

/-!
## Reference Resolver (`count_references` and the unused test of `main`)

`count_references` compiles `\b<name>\b` and counts its matches in each
clean text.  For a name made of identifier characters (every extracted
symbol is), a match of that pattern sits at position `i` exactly when the
characters of the name occur at `i`, the character before (if any) is not an
identifier character, and the character after (if any) is not either; such
matches can never overlap, so the number of `finditer` matches equals the
number of positions satisfying `wordAt`.
-/

/-- Is `text.get? j` absent or a non-identifier character?  This is the
`\b` test on the neighbour of an identifier match. -/
def boundaryAt (text : List Char) (j : Nat) : Bool :=
  match text.get? j with
  | some c => !isWordChar c
  | none => true

/-- A whole-word occurrence of `name` at position `i` of `text`. -/
def wordAt (name text : List Char) (i : Nat) : Bool :=
  decide ((text.drop i).take name.length = name)
  && (match i with
      | 0 => true
      | j + 1 => boundaryAt text j)
  && boundaryAt text (i + name.length)

/-- Number of whole-word occurrences of `name` in `text`: the embedding of
the length of the `finditer` match list of the compiled pattern
backslash-b + escaped name + backslash-b over the text. -/
def countWord (name text : List Char) : Nat :=
  ((List.range (text.length + 1)).filter (wordAt name text)).length

/-- Embedding of `count_references`: the files whose clean text references the symbol -
more than one match in the defining file (the definition itself does not
count), at least one match in any other file. -/
def countReferences (symName : String) (allContents : List (String × List Char))
    (definingFile : String) : List String :=
  (allContents.filter (fun pc =>
    if pc.1 = definingFile then decide (1 < countWord (chars symName) pc.2)
    else decide (0 < countWord (chars symName) pc.2))).map Prod.fst

/-- The auxiliary cross-language check of `main`: `js_ref` is true exactly
when the JS corpus has at least one whole-word match (an empty corpus makes
the guard `if js_contents` skip the search, which is the same as zero
matches). -/
def jsRef (symName : String) (js : List Char) : Bool :=
  decide (0 < countWord (chars symName) js)

/-- The unused test of `main` (lines building `unused`): no qualifying
reference in any file and no auxiliary reference. -/
def isUnusedSymbol (symName : String) (allContents : List (String × List Char))
    (definingFile : String) (js : List Char) : Bool :=
  (countReferences symName allContents definingFile).isEmpty && !(jsRef symName js)

/-- Total number of whole-word occurrences of the symbol across the corpus. -/
def totalWordCount (symName : String) (allContents : List (String × List Char)) : Nat :=
  (allContents.map (fun pc => countWord (chars symName) pc.2)).sum

theorem pair_le_map_sum (f : (String × List Char) → Nat) :
    ∀ (l : List (String × List Char)) (a b : String × List Char),
      a ∈ l → b ∈ l → b ≠ a → f a + f b ≤ (l.map f).sum := by
  intro l
  induction l with
  | nil => intro a b ha _ _; simp at ha
  | cons x xs ih =>
    intro a b ha hb hne
    rcases List.mem_cons.mp ha with rfl | ha'
    · rcases List.mem_cons.mp hb with rfl | hb'
      · exact absurd rfl hne
      · have hb2 : f b ≤ (xs.map f).sum :=
          List.single_le_sum (fun y _ => Nat.zero_le y) _ (List.mem_map_of_mem f hb')
        simp only [List.map_cons, List.sum_cons]
        omega
    · rcases List.mem_cons.mp hb with rfl | hb'
      · have ha2 : f a ≤ (xs.map f).sum :=
          List.single_le_sum (fun y _ => Nat.zero_le y) _ (List.mem_map_of_mem f ha')
        simp only [List.map_cons, List.sum_cons]
        omega
      · have := ih a b ha' hb' hne
        simp only [List.map_cons, List.sum_cons]
        omega

/-- The per-file predicate of `count_references`, unpacked: it is false for
a file exactly when the file is the defining file with at most one match,
or another file with no match. -/
theorem refPred_false_iff (name defFile : String) (pc : String × List Char) :
    ((if pc.1 = defFile then decide (1 < countWord (chars name) pc.2)
      else decide (0 < countWord (chars name) pc.2)) = false)
    ↔ ((pc.1 = defFile ∧ countWord (chars name) pc.2 ≤ 1)
      ∨ (pc.1 ≠ defFile ∧ countWord (chars name) pc.2 = 0)) := by
  by_cases hp : pc.1 = defFile
  · rw [if_pos hp]
    constructor
    · intro h
      left
      refine ⟨hp, ?_⟩
      have := of_decide_eq_false h
      omega
    · rintro (⟨_, h⟩ | ⟨hne, _⟩)
      · exact decide_eq_false (by omega)
      · exact absurd hp hne
  · rw [if_neg hp]
    constructor
    · intro h
      right
      refine ⟨hp, ?_⟩
      have := of_decide_eq_false h
      omega
    · rintro (⟨heq, _⟩ | ⟨_, h⟩)
      · exact absurd heq hp
      · exact decide_eq_false (by omega)

/-- If every file with the defining name has at most one match and every
other file has none, and file names are pairwise distinct, the corpus-wide
total is at most one. -/
theorem sum_le_one_of_refPred_false (name defFile : String) :
    ∀ l : List (String × List Char), (l.map Prod.fst).Nodup →
      (∀ pc ∈ l, (pc.1 = defFile ∧ countWord (chars name) pc.2 ≤ 1)
        ∨ (pc.1 ≠ defFile ∧ countWord (chars name) pc.2 = 0)) →
      (l.map (fun q => countWord (chars name) q.2)).sum ≤ 1 := by
  intro l
  induction l with
  | nil => intro _ _; simp
  | cons x xs ih =>
    intro hnodup hpt
    simp only [List.map_cons, List.nodup_cons] at hnodup
    simp only [List.map_cons, List.sum_cons]
    rcases hpt x (List.mem_cons_self _ _) with ⟨hx, hle⟩ | ⟨_, hz⟩
    · have hzero : ((xs.map (fun q => countWord (chars name) q.2)).sum = 0) := by
        apply List.sum_eq_zero
        intro y hy
        rcases List.mem_map.mp hy with ⟨pc, hpc, hfy⟩
        rcases hpt pc (List.mem_cons_of_mem x hpc) with ⟨hpd, _⟩ | ⟨_, hz⟩
        · exfalso
          apply hnodup.1
          rw [hx, ← hpd]
          exact List.mem_map_of_mem Prod.fst hpc
        · rw [← hfy]; exact hz
      omega
    · have := ih hnodup.2 (fun pc hpc => hpt pc (List.mem_cons_of_mem x hpc))
      omega

/-- C3: a recorded symbol (so: with at least one whole-word occurrence in
the clean text of its declaring file) is reported unused when its name occurs
exactly once in the whole clean corpus and not at all in the auxiliary
corpus; it is not reported when the name occurs a second time anywhere in
the corpus or at least once in the auxiliary corpus. -/
theorem c3_unused_iff (name : String) (contents : List (String × List Char))
    (defFile : String) (defClean : List Char) (js : List Char)
    (hmem : (defFile, defClean) ∈ contents)
    (hdef : 0 < countWord (chars name) defClean)
    (hnodup : (contents.map Prod.fst).Nodup) :
    (totalWordCount name contents = 1 ∧ countWord (chars name) js = 0 →
        isUnusedSymbol name contents defFile js = true)
    ∧ ((2 ≤ totalWordCount name contents ∨ 1 ≤ countWord (chars name) js) →
        isUnusedSymbol name contents defFile js = false) := by
  constructor
  · rintro ⟨hsum, hjs⟩
    have hfilter : contents.filter (fun pc =>
        if pc.1 = defFile then decide (1 < countWord (chars name) pc.2)
        else decide (0 < countWord (chars name) pc.2)) = [] := by
      rw [List.filter_eq_nil_iff]
      intro pc hpc
      rw [Bool.not_eq_true, refPred_false_iff]
      by_cases hp : pc.1 = defFile
      · left
        refine ⟨hp, ?_⟩
        have hle : countWord (chars name) pc.2 ≤ totalWordCount name contents :=
          List.single_le_sum (fun x _ => Nat.zero_le x) _
            (List.mem_map_of_mem (fun q => countWord (chars name) q.2) hpc)
        rw [hsum] at hle
        omega
      · right
        refine ⟨hp, ?_⟩
        have hpair := pair_le_map_sum (fun q => countWord (chars name) q.2)
          contents (defFile, defClean) pc hmem hpc
          (fun he => hp (by rw [he]))
        dsimp only at hpair
        have htot : totalWordCount name contents =
            (contents.map (fun q => countWord (chars name) q.2)).sum := rfl
        rw [← htot, hsum] at hpair
        omega
    simp [isUnusedSymbol, countReferences, jsRef, hfilter, hjs]
  · intro h2
    rcases h2 with h2 | h2
    · have hne : ¬ (contents.filter (fun pc =>
          if pc.1 = defFile then decide (1 < countWord (chars name) pc.2)
          else decide (0 < countWord (chars name) pc.2)) = []) := by
        intro hfilter
        rw [List.filter_eq_nil_iff] at hfilter
        have hpt : ∀ pc ∈ contents,
            (pc.1 = defFile ∧ countWord (chars name) pc.2 ≤ 1)
            ∨ (pc.1 ≠ defFile ∧ countWord (chars name) pc.2 = 0) := by
          intro pc hpc
          have hthis := hfilter pc hpc
          rw [Bool.not_eq_true, refPred_false_iff] at hthis
          exact hthis
        have := sum_le_one_of_refPred_false name defFile contents hnodup hpt
        have htot : totalWordCount name contents =
            (contents.map (fun q => countWord (chars name) q.2)).sum := rfl
        rw [← htot] at this
        omega
      match hfe : contents.filter (fun pc =>
          if pc.1 = defFile then decide (1 < countWord (chars name) pc.2)
          else decide (0 < countWord (chars name) pc.2)) with
      | [] => exact absurd hfe hne
      | x :: xs =>
        simp [isUnusedSymbol, countReferences, hfe]
    · have hjs : jsRef name js = true := by
        simp only [jsRef, decide_eq_true_eq]
        omega
      simp [isUnusedSymbol, hjs]


/-!
## Claims C4 and C7 - the recognizer passes and the symbol-table invariant

`extract_symbols` merges three recognizer passes (functions, macros,
classes); `RE_GLOBAL_VAR` is applied only inside the include auditor, so no
symbol is ever recorded with a variable kind (C4).  Within one file a later
recognizer match of a name replaces an earlier one (dict assignment), while
across files the record from the first file holding a name is kept (C7).
-/

theorem mem_dinsert : ∀ (d : SymTable) (k : String) (v : SymInfo) (x : String × SymInfo),
    x ∈ dinsert d k v → x ∈ d ∨ x = (k, v)
  | [], k, v, x, hx => by
    simp only [dinsert] at hx
    right
    simpa using hx
  | (k', v') :: rest, k, v, x, hx => by
    simp only [dinsert] at hx
    split at hx
    · rcases List.mem_cons.mp hx with h | h
      · right; exact h
      · left; exact List.mem_cons_of_mem _ h
    · rcases List.mem_cons.mp hx with h | h
      · left; rw [h]; exact List.mem_cons_self _ _
      · rcases mem_dinsert rest k v x h with h2 | h2
        · left; exact List.mem_cons_of_mem _ h2
        · right; exact h2

theorem foldl_mem_preserve {A : Type} (P : (String × SymInfo) → Prop)
    (step : SymTable → A → SymTable) :
    ∀ ms : List A,
      (∀ d a, a ∈ ms → ∀ x ∈ step d a, x ∈ d ∨ P x) →
      ∀ d : SymTable, (∀ x ∈ d, P x) → ∀ x ∈ ms.foldl step d, P x := by
  intro ms
  induction ms with
  | nil =>
    intro _ d hd x hx
    exact hd x (by simpa using hx)
  | cons m ms ih =>
    intro hstep d hd x hx
    simp only [List.foldl_cons] at hx
    refine ih (fun d' a ha => hstep d' a (List.mem_cons_of_mem m ha)) (step d m) ?_ x hx
    intro y hy
    rcases hstep d m (List.mem_cons_self m ms) y hy with h | h
    · exact hd y h
    · exact h

theorem extractFunctions_kind (clean : List Char) (fp : FPath) :
    ∀ x ∈ extractFunctions clean fp, x.2.kind = "function" := by
  apply foldl_mem_preserve
  · intro d a ha x hx
    dsimp only at hx
    split at hx
    · left; exact hx
    · rcases mem_dinsert _ _ _ _ hx with h | h
      · left; exact h
      · right; rw [h]
  · intro x hx
    simp at hx

theorem extractDefines_kind (clean : List Char) (fp : FPath) :
    ∀ x ∈ extractDefines clean fp, x.2.kind = "define" := by
  apply foldl_mem_preserve
  · intro d a ha x hx
    dsimp only at hx
    split at hx
    · left; exact hx
    · split at hx
      · left; exact hx
      · rcases mem_dinsert _ _ _ _ hx with h | h
        · left; exact h
        · right; rw [h]
  · intro x hx
    simp at hx

theorem extractClasses_kind (clean : List Char) (fp : FPath) :
    ∀ x ∈ extractClasses clean fp, x.2.kind = "class" := by
  apply foldl_mem_preserve
  · intro d a ha x hx
    dsimp only at hx
    split at hx
    · left; exact hx
    · rcases mem_dinsert _ _ _ _ hx with h | h
      · left; exact h
      · right; rw [h]
  · intro x hx
    simp at hx

theorem mem_dupdate (d d' : SymTable) (x : String × SymInfo) (hx : x ∈ dupdate d d') :
    x ∈ d ∨ x ∈ d' := by
  unfold dupdate at hx
  refine foldl_mem_preserve (fun y => y ∈ d ∨ y ∈ d')
    (fun acc kv => dinsert acc kv.1 kv.2) d' ?_ d (fun y hy => Or.inl hy) x hx
  intro acc kv hkv y hy
  rcases mem_dinsert _ _ _ _ hy with h | h
  · exact Or.inl h
  · refine Or.inr (Or.inr ?_)
    rw [h, Prod.mk.eta]
    exact hkv

/-- C4 (amended): the Symbol Extractor applies three recognizer passes -
function definitions, macro definitions, and class/struct definitions - so
every recorded symbol has kind function, define, or class; the
global-variable recognizer is used only by the Include Auditor and no
symbol is ever recorded with a variable kind. -/
theorem c4_extractor_kinds (fp : FPath) (content : List Char) (x : String × SymInfo)
    (hx : x ∈ extractSymbols fp content) :
    x.2.kind = "function" ∨ x.2.kind = "define" ∨ x.2.kind = "class" := by
  simp only [extractSymbols] at hx
  rcases mem_dupdate _ _ _ hx with h | h
  · rcases mem_dupdate _ _ _ h with h2 | h2
    · left; exact extractFunctions_kind _ _ x h2
    · right; left; exact extractDefines_kind _ _ x h2
  · right; right; exact extractClasses_kind _ _ x h

/-- C4 (witness): a concrete file whose one symbol the amended theorem
classifies. -/
theorem c4_extractor_kinds_witness :
    (⟨"function", "src/a.cpp", 1, "foo"⟩ : SymInfo).kind = "function"
    ∨ (⟨"function", "src/a.cpp", 1, "foo"⟩ : SymInfo).kind = "define"
    ∨ (⟨"function", "src/a.cpp", 1, "foo"⟩ : SymInfo).kind = "class" :=
  c4_extractor_kinds ⟨"src/a.cpp", "a"⟩ (chars "void foo() \x7b int a; \x7d\n")
    ("foo", ⟨"function", "src/a.cpp", 1, "foo"⟩)
    (by
      rw [show extractSymbols ⟨"src/a.cpp", "a"⟩ (chars "void foo() \x7b int a; \x7d\n")
          = [("foo", ⟨"function", "src/a.cpp", 1, "foo"⟩)] from by decide]
      exact List.mem_singleton_self _)

/-- C4 (counterexample): a file-scope variable declaration that the
global-variable recognizer matches (capture `counter`, not
framework-reserved, no leading underscore) yields an empty symbol table:
no pass of `extract_symbols` records variables. -/
theorem c4_variable_not_recorded :
    ((finditer reGlobalVar (cleanText (chars "int counter = 0;\n"))).map
        (fun m => capString (cleanText (chars "int counter = 0;\n")) m.2.2) = ["counter"])
    ∧ extractSymbols ⟨"src/GlobalState.h", "GlobalState"⟩ (chars "int counter = 0;\n") = [] :=
  ⟨by decide, by decide⟩

theorem lookup_cons (k : String) (y : String × SymInfo) (ys : SymTable) :
    (y :: ys).lookup k = if k == y.1 then some y.2 else ys.lookup k := by
  obtain ⟨k', v'⟩ := y
  cases h : (k == k') <;> simp [List.lookup, h]

theorem lookup_append_single (acc : SymTable) (kv : String × SymInfo) (name : String) :
    (acc ++ [kv]).lookup name =
      match acc.lookup name with
      | some v => some v
      | none => if name == kv.1 then some kv.2 else none := by
  induction acc with
  | nil =>
    rw [List.nil_append, lookup_cons]
    cases h : (name == kv.1) <;> simp [h, List.lookup]
  | cons y ys ih =>
    rw [List.cons_append, lookup_cons, lookup_cons]
    cases h : (name == y.1)
    · simp only [Bool.false_eq_true, if_false]
      exact ih
    · simp

theorem lookup_insertLoop (tbl : List (String × SymInfo)) :
    ∀ (acc : SymTable) (name : String),
      (tbl.foldl insertIfAbsent acc).lookup name =
        match acc.lookup name with
        | some v => some v
        | none => tbl.lookup name := by
  induction tbl with
  | nil =>
    intro acc name
    cases h : acc.lookup name <;> simp [h, List.lookup]
  | cons kv tbl ih =>
    intro acc name
    simp only [List.foldl_cons]
    rw [ih]
    unfold insertIfAbsent
    by_cases hs : (acc.lookup kv.1).isSome
    · rw [if_pos hs, lookup_cons]
      cases h : acc.lookup name with
      | some v => simp
      | none =>
        cases hk : (name == kv.1)
        · simp
        · have hkeq : name = kv.1 := eq_of_beq hk
          rw [← hkeq, h] at hs
          simp at hs
    · rw [if_neg hs, lookup_append_single, lookup_cons]
      cases h : acc.lookup name with
      | some v => simp
      | none => cases hk : (name == kv.1) <;> simp

theorem buildLoop_lookup (tables : List SymTable) :
    ∀ (acc : SymTable) (name : String),
      ((tables.foldl (fun acc tbl => tbl.foldl insertIfAbsent acc) acc).lookup name)
        = match acc.lookup name with
          | some v => some v
          | none => tables.findSome? (fun t => t.lookup name) := by
  induction tables with
  | nil =>
    intro acc name
    cases h : acc.lookup name <;> simp [h]
  | cons t ts ih =>
    intro acc name
    simp only [List.foldl_cons]
    rw [ih, lookup_insertLoop, List.findSome?_cons]
    cases h : acc.lookup name with
    | some v => simp
    | none => cases h2 : t.lookup name <;> simp [h2]

theorem lookup_isSome_of_mem_keys (d : SymTable) (k : String)
    (h : k ∈ d.map Prod.fst) : (d.lookup k).isSome := by
  induction d with
  | nil => simp at h
  | cons y ys ih =>
    rw [lookup_cons]
    simp only [List.map_cons, List.mem_cons] at h
    cases hk : (k == y.1)
    · simp only [Bool.false_eq_true, if_false]
      rcases h with h | h
      · exact absurd (beq_iff_eq.mpr h) (by simp [hk])
      · exact ih h
    · simp

theorem insertIfAbsent_nodup (a : SymTable) (kv : String × SymInfo)
    (h : (a.map Prod.fst).Nodup) : ((insertIfAbsent a kv).map Prod.fst).Nodup := by
  unfold insertIfAbsent
  by_cases hs : (a.lookup kv.1).isSome
  · rw [if_pos hs]; exact h
  · rw [if_neg hs]
    simp only [List.map_append, List.map_cons, List.map_nil]
    rw [List.nodup_append]
    refine ⟨h, List.nodup_singleton _, ?_⟩
    intro x hx hx2
    simp only [List.mem_singleton] at hx2
    subst hx2
    exact hs (lookup_isSome_of_mem_keys a kv.1 hx)

theorem insertLoop_nodup (tbl : List (String × SymInfo)) :
    ∀ acc : SymTable, ((acc.map Prod.fst).Nodup) →
      (((tbl.foldl insertIfAbsent acc)).map Prod.fst).Nodup := by
  induction tbl with
  | nil => intro acc h; simpa using h
  | cons kv tbl ih =>
    intro acc h
    simp only [List.foldl_cons]
    exact ih _ (insertIfAbsent_nodup acc kv h)

theorem buildLoop_nodup (tables : List SymTable) :
    ∀ acc : SymTable, ((acc.map Prod.fst).Nodup) →
      (((tables.foldl (fun acc tbl => tbl.foldl insertIfAbsent acc) acc)).map Prod.fst).Nodup := by
  induction tables with
  | nil => intro acc h; simpa using h
  | cons t ts ih =>
    intro acc h
    simp only [List.foldl_cons]
    exact ih _ (insertLoop_nodup t acc h)

/-- C7 (amended): the global symbol table holds at most one record per bare
name, and the record retained for a name is the one in the first file (in
processing order) whose extracted table contains the name - later files
never replace it.  Within a single file, however, the last recognizer match
of a name is the one its table carries (dict assignment overwrites). -/
theorem c7_first_file_wins (tables : List SymTable) (name : String) :
    (buildAllSymbols tables).lookup name = tables.findSome? (fun t => t.lookup name)
    ∧ ((buildAllSymbols tables).map Prod.fst).Nodup := by
  constructor
  · unfold buildAllSymbols
    rw [buildLoop_lookup]
    simp [List.lookup]
  · exact buildLoop_nodup tables [] (by simp)

/-- C7 (counterexample): one file defining `foo` twice (recognizer matches
at lines 1 and 2); the retained record is that of the second definition - the
later definition replaced the first one encountered. -/
theorem c7_within_file_last_wins :
    ((finditer reFuncDef (cleanText (chars "void foo() \x7b int a; \x7d\nvoid foo() \x7b int b; \x7d\n"))).map
        (fun m => lineOf (cleanText (chars "void foo() \x7b int a; \x7d\nvoid foo() \x7b int b; \x7d\n")) m.1)
      = [1, 2])
    ∧ buildAllSymbols [extractSymbols ⟨"src/a.cpp", "a"⟩
        (chars "void foo() \x7b int a; \x7d\nvoid foo() \x7b int b; \x7d\n")]
      = [("foo", ⟨"function", "src/a.cpp", 2, "foo"⟩)] :=
  ⟨by decide, by decide⟩

/-!
## Include Auditor (`analyze_header_includes`)

For each resolved project-local include, the auditor extracts the exported
names of the header with five recognizer passes, subtracts a fixed keyword-noise
set, and flags the include only when the clean text of the including file uses
none of the (length >= 3) exported names and the set is non-empty; a
finding carries the first five exported names in sorted order.
-/

/-- An UnjustifiedInclude finding: including file, line of the `#include`,
included path, and up to five sample exported names. -/
structure IncludeFinding where
  file : String
  line : Nat
  includeName : String
  headerSymbols : List String
deriving DecidableEq

/-- The keyword-noise set subtracted from the exported names of a header. -/
def NOISE_KEYWORDS : List String :=
  ["if", "else", "for", "while", "return", "include",
   "define", "endif", "ifdef", "ifndef", "pragma"]

/-- Set-dedup of a list of names (which occurrence survives is irrelevant:
the set is only sorted, tested for emptiness, and searched). -/
def dedupStr : List String → List String
  | [] => []
  | x :: xs => if strMem xs x then dedupStr xs else x :: dedupStr xs

/-- Lexicographic comparison by code points, the Python `<=` on `str`. -/
def charsLe : List Char → List Char → Bool
  | [], _ => true
  | _ :: _, [] => false
  | a :: as, b :: bs => if a = b then charsLe as bs else decide (a < b)

/-- Python string comparison. -/
def strLe (a b : String) : Bool := charsLe a.data b.data

/-- Insertion into a sorted list. -/
def insertSorted (x : String) : List String → List String
  | [] => [x]
  | y :: ys => if strLe x y then x :: y :: ys else y :: insertSorted x ys

/-- Python `sorted` on a list of names. -/
def sortStrings : List String → List String
  | [] => []
  | x :: xs => insertSorted x (sortStrings xs)

/-- The exported symbol set of a header: function declarations, function
definitions (base names), classes, macros and global variables recognized
in the clean text of the header, with the keyword-noise set subtracted. -/
def headerExportedSymbols (headerClean : List Char) : List String :=
  let names :=
    (finditer reFuncDecl headerClean).map (fun m => capString headerClean m.2.2)
    ++ (finditer reFuncDef headerClean).map
        (fun m => baseNameOf (capString headerClean m.2.2))
    ++ (finditer reClass headerClean).map (fun m => capString headerClean m.2.2)
    ++ (finditer reDefine headerClean).map (fun m => capString headerClean m.2.2)
    ++ (finditer reGlobalVar headerClean).map (fun m => capString headerClean m.2.2)
  (dedupStr names).filter (fun n => !(strMem NOISE_KEYWORDS n))

/-- The per-include core of `analyze_header_includes`: skip exported names
shorter than 3 characters, search the clean text of the including file for a
whole-word occurrence of any remaining name, and flag the include only if
none is found and the exported set is non-empty, with the first five sorted
exported names as samples. -/
def auditIncludeCore (headerSymbols : List String) (fileClean : List Char)
    (file : String) (line : Nat) (inc : String) : Option IncludeFinding :=
  let usedAny := headerSymbols.any (fun sym =>
    !decide (sym.length < 3) && decide (0 < countWord (chars sym) fileClean))
  if !usedAny && !headerSymbols.isEmpty then
    some ⟨file, line, inc, (sortStrings headerSymbols).take 5⟩
  else none

/-- C8: if the clean text of the including file contains a whole-word occurrence
of at least one exported name of length at least 3, no UnjustifiedInclude
finding is emitted for that include; and an emitted finding carries at most
five sample exported names. -/
theorem c8_include_audit (syms : List String) (fileClean : List Char)
    (file : String) (line : Nat) (inc : String) :
    ((∃ sym ∈ syms, 3 ≤ sym.length ∧ 0 < countWord (chars sym) fileClean) →
        auditIncludeCore syms fileClean file line inc = none)
    ∧ (∀ f, auditIncludeCore syms fileClean file line inc = some f →
        f.headerSymbols.length ≤ 5) := by
  constructor
  · rintro ⟨sym, hmem, hlen, hocc⟩
    have husd : syms.any (fun sym =>
        !decide (sym.length < 3) && decide (0 < countWord (chars sym) fileClean)) = true := by
      rw [List.any_eq_true]
      refine ⟨sym, hmem, ?_⟩
      rw [Bool.and_eq_true, Bool.not_eq_true']
      constructor
      · rw [decide_eq_false_iff_not]
        omega
      · rw [decide_eq_true_eq]
        exact hocc
    simp [auditIncludeCore, husd]
  · intro f hf
    simp only [auditIncludeCore] at hf
    split at hf
    · rw [Option.some.injEq] at hf
      rw [← hf]
      exact List.length_take_le 5 _
    · exact absurd hf (by simp)

/-- C8 (witness): a used exported name (`alpha` in `alpha();`) suppresses
the finding; a finding produced from six unused names carries five
samples. -/
theorem c8_include_audit_witness :
    auditIncludeCore ["alpha", "beta"] (chars "alpha();") "src/a.cpp" 3 "core/x.h" = none
    ∧ (⟨"src/a.cpp", 3, "core/x.h",
        ["beta", "delta", "eps1", "eps2", "eps3"]⟩ : IncludeFinding).headerSymbols.length ≤ 5 :=
  ⟨(c8_include_audit ["alpha", "beta"] (chars "alpha();") "src/a.cpp" 3 "core/x.h").1
      ⟨"alpha", List.mem_cons_self _ _, by decide, by decide⟩,
   (c8_include_audit ["beta", "gamma", "delta", "eps1", "eps2", "eps3"]
      (chars "int q;") "src/a.cpp" 3 "core/x.h").2
      ⟨"src/a.cpp", 3, "core/x.h", ["beta", "delta", "eps1", "eps2", "eps3"]⟩ (by decide)⟩

/-- C10: when the header's extracted exported-symbol set is empty after
keyword-noise subtraction, the guard `header_symbols` is falsy and no
UnjustifiedInclude finding is emitted for the include, although none of the
header's names is used in the including file. -/
theorem c10_empty_header_exports (headerClean fileClean : List Char)
    (file : String) (line : Nat) (inc : String)
    (h : headerExportedSymbols headerClean = []) :
    auditIncludeCore (headerExportedSymbols headerClean) fileClean file line inc = none := by
  rw [h]
  simp [auditIncludeCore]

/-- C10 (witness): a header exporting only the noise keyword `if` has an
empty exported set and its include is never flagged. -/
theorem c10_empty_header_exports_witness :
    auditIncludeCore (headerExportedSymbols (chars "#define if 1\n")) (chars "int q;")
      "src/a.cpp" 1 "core/x.h" = none :=
  c10_empty_header_exports (chars "#define if 1\n") (chars "int q;")
    "src/a.cpp" 1 "core/x.h" (by decide)

/-!
## Extern Orphan Checker (section 4 of `main`)

For every extern declaration matched in the clean text of a header
(excluding the `extern "C"` linkage form), the check searches the clean
text of every implementation file for the identifier followed - after
optional whitespace -
by `=`, `;`, `(`, an opening brace, or an opening bracket, at a position
not preceded by the seven characters `extern` plus one whitespace; if no
such occurrence exists, it reports the declaration with its header and
line.
-/

/-- An OrphanExtern finding (header file, declaration line, identifier). -/
structure OrphanFinding where
  file : String
  line : Nat
  name : String
deriving DecidableEq

/-- Python test that the path ends with `.cpp` or `.ino`. -/
def isImplFile (p : String) : Bool :=
  endsWithL (chars ".cpp") p || endsWithL (chars ".ino") p

/-- Python test that the path ends with `.h`. -/
def isHeaderFile (p : String) : Bool := endsWithL (chars ".h") p

/-- Skip the `\s*` run. -/
def skipSpaces : List Char → List Char
  | [] => []
  | c :: rest => if isSpaceChar c then skipSpaces rest else c :: rest

/-- The definition-occurrence character class of the code, `[=;({[]`. -/
def defCharSet (c : Char) : Bool :=
  c = '=' || c = ';' || c = '(' || c = lbrace || c = '['

/-- The occurrence class exactly as the claim words it - assignment,
statement terminator, call-parenthesis, or brace - with no bracket.
Modelled from the spec for comparison with the `defCharSet` of the code. -/
def defCharSetSpec (c : Char) : Bool :=
  c = '=' || c = ';' || c = '(' || c = lbrace

/-- One match of `(?<!extern\s)\b<name>\b\s*[class]` at position `i`:
the characters of the name with identifier boundaries on both sides, then
optional whitespace and a character of the class, the whole not preceded by
the seven characters `extern` + whitespace. -/
def defOccursAt (cset : Char → Bool) (name text : List Char) (i : Nat) : Bool :=
  decide ((text.drop i).take name.length = name)
  && (match i with
      | 0 => true
      | j + 1 => boundaryAt text j)
  && boundaryAt text (i + name.length)
  && (match skipSpaces (text.drop (i + name.length)) with
      | c :: _ => cset c
      | [] => false)
  && !(decide (7 ≤ i)
      && decide ((text.drop (i - 7)).take 6 = chars "extern")
      && (match text.get? (i - 1) with
          | some c => isSpaceChar c
          | none => false))

/-- Search (`re.search`) of the definition-occurrence pattern over a clean text. -/
def defOccurs (cset : Char → Bool) (name text : List Char) : Bool :=
  (List.range (text.length + 1)).any (defOccursAt cset name text)

/-- The inner loop of the orphan check: does any implementation file
contain a non-extern defining occurrence of the identifier? -/
def definedInCpp (name : String) (files : List (String × List Char)) : Bool :=
  files.any (fun pc => isImplFile pc.1 && defOccurs defCharSet (chars name) pc.2)

/-- The extern declarations of a header's clean text: (line, identifier)
per `extern_pattern` match. -/
def orphanDeclMatches (clean : List Char) : List (Nat × String) :=
  (finditer reOrphanDecl clean).map (fun m => (lineOf clean m.1, capString clean m.2.2))

/-- The orphan-check loops of `main`: for every collected `.h` file, for
every extern declaration in it except `extern "C"`, report it if no
implementation file defines the identifier.  The first argument is the full
corpus consulted by the inner loop; the second is the scan list. -/
def orphanScan (all : List (String × List Char)) :
    List (String × List Char) → List OrphanFinding
  | [] => []
  | fc :: rest =>
    (if isHeaderFile fc.1 then
      (orphanDeclMatches fc.2).filterMap (fun ln =>
        if ln.2 = "C" then none
        else if definedInCpp ln.2 all then none
        else some ⟨fc.1, ln.1, ln.2⟩)
    else []) ++ orphanScan all rest

/-- All OrphanExtern findings of a run. -/
def orphanFindings (files : List (String × List Char)) : List OrphanFinding :=
  orphanScan files files

/-- Occurrence count by decidable equality (the `List.count` of the model;
kept separate so that concrete instances evaluate by kernel reduction). -/
def countOcc {α : Type} [DecidableEq α] (x : α) (l : List α) : Nat :=
  (l.filter (fun y => decide (y = x))).length

theorem countOcc_nil {α : Type} [DecidableEq α] (x : α) : countOcc x [] = 0 := rfl

theorem countOcc_cons {α : Type} [DecidableEq α] (x y : α) (l : List α) :
    countOcc x (y :: l) = countOcc x l + if y = x then 1 else 0 := by
  by_cases h : y = x <;> simp [countOcc, h]

theorem countOcc_append {α : Type} [DecidableEq α] (x : α) (l₁ l₂ : List α) :
    countOcc x (l₁ ++ l₂) = countOcc x l₁ + countOcc x l₂ := by
  simp [countOcc, List.filter_append]

theorem countOcc_eq_zero {α : Type} [DecidableEq α] (x : α) (l : List α)
    (h : ∀ y ∈ l, y ≠ x) : countOcc x l = 0 := by
  unfold countOcc
  rw [List.length_eq_zero, List.filter_eq_nil_iff]
  intro a ha
  simp [h a ha]

theorem orphanScan_append (all xs ys : List (String × List Char)) :
    orphanScan all (xs ++ ys) = orphanScan all xs ++ orphanScan all ys := by
  induction xs with
  | nil => simp [orphanScan]
  | cons x xs ih => simp [orphanScan, ih]

theorem orphanScan_file_mem (all : List (String × List Char)) :
    ∀ (scan : List (String × List Char)) (f : OrphanFinding),
      f ∈ orphanScan all scan → f.file ∈ scan.map Prod.fst := by
  intro scan
  induction scan with
  | nil => intro f hf; simp [orphanScan] at hf
  | cons fc rest ih =>
    intro f hf
    simp only [orphanScan, List.mem_append] at hf
    simp only [List.map_cons, List.mem_cons]
    rcases hf with hf | hf
    · split at hf
      · rcases List.mem_filterMap.mp hf with ⟨ln, _, hln⟩
        split at hln
        · simp at hln
        · split at hln
          · simp at hln
          · rw [Option.some.injEq] at hln
            left
            rw [← hln]
      · simp at hf
    · right
      exact ih f hf

theorem count_filterMap_orphan (all : List (String × List Char)) (hp : String)
    (line : Nat) (name : String) (hC : name ≠ "C")
    (hnodef : definedInCpp name all = false) :
    ∀ ms : List (Nat × String),
      countOcc (⟨hp, line, name⟩ : OrphanFinding)
        (ms.filterMap (fun ln =>
          if ln.2 = "C" then none
          else if definedInCpp ln.2 all then none
          else some ⟨hp, ln.1, ln.2⟩))
      = countOcc (line, name) ms := by
  intro ms
  induction ms with
  | nil => simp [countOcc]
  | cons ln ms ih =>
    obtain ⟨l, n⟩ := ln
    rw [countOcc_cons, List.filterMap_cons]
    by_cases h1 : n = "C"
    · rw [if_pos h1, ih, if_neg ?_]
      · omega
      · intro he
        rw [Prod.mk.injEq] at he
        exact hC (by rw [← he.2, h1])
    · rw [if_neg h1]
      by_cases h2 : definedInCpp n all = true
      · rw [if_pos h2, ih, if_neg ?_]
        · omega
        · intro he
          rw [Prod.mk.injEq] at he
          rw [he.2] at h2
          rw [hnodef] at h2
          exact Bool.false_ne_true h2
      · rw [if_neg h2, countOcc_cons, ih]
        by_cases h3 : (l, n) = (line, name)
        · rw [Prod.mk.injEq] at h3
          rw [if_pos (by rw [h3.1, h3.2]), if_pos (by rw [h3.1, h3.2])]
        · rw [if_neg h3, if_neg ?_]
          intro he
          apply h3
          have h4 : l = line ∧ n = name := by
            rw [OrphanFinding.mk.injEq] at he
            exact ⟨he.2.1, he.2.2⟩
          rw [Prod.mk.injEq]
          exact h4

/-- C9 (amended): for every extern declaration matched in a collected
header (identifier not `C`, appearing as exactly one (line, name) match of
the header), if the clean text of no implementation file contains the identifier
followed - after optional whitespace - by an assignment, statement
terminator, call-parenthesis, opening brace, or opening bracket at a
position not preceded by the `extern` keyword, then exactly one
OrphanExtern finding carrying that header file and the match's line number
is produced. -/
theorem c9_orphan_amended (files : List (String × List Char)) (hp : String)
    (hc : List Char) (line : Nat) (name : String)
    (hnodup : (files.map Prod.fst).Nodup)
    (hmem : (hp, hc) ∈ files)
    (hh : isHeaderFile hp = true)
    (hone : countOcc (line, name) (orphanDeclMatches hc) = 1)
    (hC : name ≠ "C")
    (hnodef : definedInCpp name files = false) :
    countOcc (⟨hp, line, name⟩ : OrphanFinding) (orphanFindings files) = 1 := by
  obtain ⟨s, t, hdec⟩ := List.append_of_mem hmem
  have hnodup' := hnodup
  rw [hdec, List.map_append, List.map_cons] at hnodup'
  have hs : hp ∉ s.map Prod.fst := by
    intro hmem'
    exact (List.nodup_append.mp hnodup').2.2 hmem' (List.mem_cons_self _ _)
  have ht : hp ∉ t.map Prod.fst :=
    (List.nodup_cons.mp (List.nodup_append.mp hnodup').2.1).1
  unfold orphanFindings
  rw [hdec] at hnodef ⊢
  rw [orphanScan_append, countOcc_append]
  have hzs : countOcc (⟨hp, line, name⟩ : OrphanFinding)
      (orphanScan (s ++ (hp, hc) :: t) s) = 0 := by
    apply countOcc_eq_zero
    intro y hy hyx
    have hfm := orphanScan_file_mem _ s y hy
    rw [hyx] at hfm
    exact hs hfm
  simp only [orphanScan]
  rw [countOcc_append]
  have hzt : countOcc (⟨hp, line, name⟩ : OrphanFinding)
      (orphanScan (s ++ (hp, hc) :: t) t) = 0 := by
    apply countOcc_eq_zero
    intro y hy hyx
    have hfm := orphanScan_file_mem _ t y hy
    rw [hyx] at hfm
    exact ht hfm
  rw [if_pos hh]
  rw [count_filterMap_orphan _ hp line name hC hnodef, hone, hzs, hzt]

/-- C9 (witness): `extern int counter;` in `a.h` with no defining
occurrence in the only implementation file yields exactly one finding for
`a.h`, line 1. -/
theorem c9_orphan_witness :
    countOcc (⟨"a.h", 1, "counter"⟩ : OrphanFinding)
      (orphanFindings [("a.h", cleanText (chars "extern int counter;\n")),
        ("b.cpp", cleanText (chars "int x;\n"))]) = 1 :=
  c9_orphan_amended
    [("a.h", cleanText (chars "extern int counter;\n")),
     ("b.cpp", cleanText (chars "int x;\n"))]
    "a.h" (cleanText (chars "extern int counter;\n")) 1 "counter"
    (by decide) (List.mem_cons_self _ _) (by decide) (by decide) (by decide) (by decide)

/-- C9 (counterexample): `a.h` declares `extern int counter;`; the only
implementation file contains `int counter[3];` - a defining occurrence via
the opening bracket, which the four-character class of the claim does not
include.  No occurrence of that class exists, yet no OrphanExtern
finding is emitted. -/
theorem c9_bracket_counterexample :
    orphanDeclMatches (cleanText (chars "extern int counter;\n")) = [(1, "counter")]
    ∧ defOccurs defCharSetSpec (chars "counter") (cleanText (chars "int counter[3];\n")) = false
    ∧ orphanFindings [("a.h", cleanText (chars "extern int counter;\n")),
        ("b.cpp", cleanText (chars "int counter[3];\n"))] = [] :=
  ⟨by decide, by decide, by decide⟩

/-!
## The pipeline of `main`: read loop, extraction loop, exit status

The read loop collects the raw text of each readable file and records a warning
for each unreadable one.  The extraction loop then iterates over ALL
collected files and indexes `all_contents_raw[str(f)]`; for a file the read
loop excluded the key is missing and Python raises an uncaught `KeyError`,
aborting the run (claim C2).  At the end `main` returns
`0 if total_issues == 0 else 1`, but the `__main__` guard calls `main()`
without `sys.exit`, so the interpreter discards the value and the process
always exits with status 0 (claim C1).
-/

/-- The read loop of `main`: each input is a collected path with its raw
text, or `none` for a file whose read raises.  Returns the contents map (in
collection order) and the warned-about paths. -/
def readAll : List (String × Option String) → List (String × String) × List String
  | [] => ([], [])
  | (p, r) :: rest =>
    let pr := readAll rest
    match r with
    | some raw => ((p, raw) :: pr.1, pr.2)
    | none => (pr.1, p :: pr.2)

/-- The symbol-extraction loop of `main`: for every collected file (the
full list, not the successfully-read one), look up its raw text and fold
its extracted symbols into the global table; a missing key is Python's
`KeyError`, which nothing catches. -/
def extractionLoop (raws : List (String × String)) :
    List FPath → SymTable → Except String SymTable
  | [], acc => .ok acc
  | fp :: rest, acc =>
    match raws.lookup fp.path with
    | none => .error ("KeyError: " ++ fp.path)
    | some raw =>
      extractionLoop raws rest ((extractSymbols fp (chars raw)).foldl insertIfAbsent acc)

/-- C2 (code_bug): with one unreadable file the read loop records a warning
and excludes the file, but the extraction loop then raises `KeyError` on
the missing raw text of that file, aborting the run before any remaining file is
analyzed - the pipeline does not degrade gracefully. -/
theorem c2_unreadable_file_aborts :
    readAll [("src/bad.cpp", none), ("src/good.cpp", some "void foo() \x7b int a; \x7d\n")]
      = ([("src/good.cpp", "void foo() \x7b int a; \x7d\n")], ["src/bad.cpp"])
    ∧ extractionLoop
        (readAll [("src/bad.cpp", none),
          ("src/good.cpp", some "void foo() \x7b int a; \x7d\n")]).1
        [⟨"src/bad.cpp", "bad"⟩, ⟨"src/good.cpp", "good"⟩] []
      = .error "KeyError: src/bad.cpp" :=
  ⟨by decide, rfl⟩

/-- Line 421 of `main`: `return 0 if total_issues == 0 else 1`, where
`total_issues = len(unused)` counts only UnusedSymbol findings (macro,
include and extern findings are not part of it). -/
def mainReturnValue (unusedCount : Nat) : Nat := if unusedCount = 0 then 0 else 1

/-- Modelled from the `__main__` guard (lines 424-425): `main()` is invoked
without `sys.exit`, its return value is discarded, and a script that runs
off its end exits with status 0 regardless. -/
def processExitStatus (_mainReturn : Nat) : Nat := 0

/-- C1 (code_bug): `main` computes return value 0 exactly when there are no
unused-symbol findings and 1 otherwise, but the `__main__` guard discards
it, so the process exit status is 0 even when findings exist. -/
theorem c1_exit_status_discarded :
    mainReturnValue 0 = 0 ∧ mainReturnValue 1 = 1
    ∧ (∀ n : Nat, processExitStatus (mainReturnValue n) = 0) :=
  ⟨rfl, rfl, fun _ => rfl⟩

/-- C3 (witness): a symbol named once in its own file and nowhere else is
reported; adding a second file that mentions it stops the report. -/
theorem c3_unused_witness :
    isUnusedSymbol "foo" [("a.cpp", chars "void foo();")] "a.cpp" [] = true
    ∧ isUnusedSymbol "foo" [("a.cpp", chars "void foo();"), ("b.cpp", chars "foo();")]
        "a.cpp" [] = false :=
  ⟨(c3_unused_iff "foo" [("a.cpp", chars "void foo();")] "a.cpp" (chars "void foo();") []
      (by decide) (by decide) (by decide)).1 (by decide),
   (c3_unused_iff "foo" [("a.cpp", chars "void foo();"), ("b.cpp", chars "foo();")]
      "a.cpp" (chars "void foo();") []
      (by decide) (by decide) (by decide)).2 (by decide)⟩
